import Mathlib

/-!
Verification of the fetch-through caching and concurrency core of the
stock-project repository (Python sources `cache_manager.py`, `utils.py`,
`screening.py`) against its natural-language specification.

The Python code is shallowly embedded: pure computations become Lean
functions over `Rat`/`Int`/`Nat`/`String`; the cache directory becomes an
explicit map from paths to file contents; fallible operations return
`Except`/`Option`.  Timestamps (Python `time.time()` floats) are modelled
as rationals.  Report-period end dates such as the string "20201231" are
modelled as the number 20201231, so that Python's lexicographic
comparison and `endswith("1231")` become numeric comparison and
`% 10000 = 1231`.
-/

/-! ## RateScheduler: `get_api_delay` (utils.py lines 116-183) -/

/-- The endpoint classes treated as financial-data APIs by
`get_api_delay` (utils.py line 163). -/
def financialApis : List String :=
  ["fina_audit", "balancesheet", "income", "cashflow", "fina_indicator"]

/-- Body of `get_api_delay` after the `max(1, max_workers)` clamp and the
`user_points` defaulting have been applied; mirrors lines 151-183 of
utils.py branch for branch (the dead `else 0.3` guards included). -/
def delayCore (apiName : String) (pts : Rat) (w : Int) : Rat :=
  if apiName = "stock_company" then 6
  else if financialApis.contains apiName then
    if pts < 120 then 30
    else if pts < 600 then 12
    else if pts < 5000 then (if w > 0 then 60 / (200 / (w : Rat)) else 3/10)
    else (if w > 0 then 60 / (200 / (w : Rat)) else 3/10)
  else if w > 0 then 60 / (200 / (w : Rat)) else 3/10

/-- `get_api_delay(api_name, user_points, max_workers)` (utils.py lines
116-183): defaults `user_points` to 2000 when absent, clamps
`max_workers` to at least 1, then dispatches on the endpoint class. -/
def get_api_delay (apiName : String) (userPoints : Option Rat) (maxWorkers : Int) : Rat :=
  delayCore apiName (userPoints.getD 2000) (max 1 maxWorkers)

/-! ## Claim theorems for the rate scheduler -/

/-- C3: for the financial endpoint class at the mid-tier ceiling G=200
calls/minute, `get_api_delay` returns exactly 60/(G/W): 3 seconds for
W=10 workers and 3/10 seconds for W=1; and for the fixed-ceiling
endpoint class `stock_company` the result is independent of the account
tier (the user-points argument). -/
theorem rate_formula_correct :
    get_api_delay "balancesheet" (some 2000) 10 = 3 ∧
    get_api_delay "balancesheet" (some 2000) 1 = 3/10 ∧
    ∀ (p q : Option Rat) (w : Int),
      get_api_delay "stock_company" p w = get_api_delay "stock_company" q w := by
  refine ⟨?_, ?_, ?_⟩
  · unfold get_api_delay delayCore financialApis
    norm_num
    decide
  · unfold get_api_delay delayCore financialApis
    norm_num
    decide
  · intro p q w
    rfl

/-- C10: `get_api_delay` is total in the worker count: any
`max_workers ≤ 0` behaves exactly like `max_workers = 1` (the
`max(1, max_workers)` clamp), the internal division never divides by
zero, and the result is always non-negative. -/
theorem delay_total_and_nonneg (apiName : String) (userPoints : Option Rat) (w : Int) :
    (w ≤ 0 → get_api_delay apiName userPoints w = get_api_delay apiName userPoints 1) ∧
    0 ≤ get_api_delay apiName userPoints w := by
  constructor
  · intro hw
    unfold get_api_delay
    have h1 : max 1 w = 1 := by omega
    have h2 : max 1 (1 : Int) = 1 := by omega
    rw [h1, h2]
  · unfold get_api_delay
    generalize max 1 w = v
    unfold delayCore
    have hdiv : (0 : Rat) ≤ (if v > 0 then 60 / (200 / (v : Rat)) else 3/10) := by
      split
      · have hv : (0 : Rat) ≤ (v : Rat) := by
          have : (0 : Int) < v := by assumption
          exact_mod_cast le_of_lt this
        exact div_nonneg (by norm_num) (div_nonneg (by norm_num) hv)
      · norm_num
    split
    · norm_num
    · split
      · split
        · norm_num
        · split
          · norm_num
          · split
            · exact hdiv
            · exact hdiv
      · exact hdiv

/-- Witness for C10 at the concrete input (`income`, 2000 points,
max_workers = -3). -/
theorem delay_total_and_nonneg_witness :
    get_api_delay "income" (some 2000) (-3) = get_api_delay "income" (some 2000) 1 ∧
    0 ≤ get_api_delay "income" (some 2000) (-3) :=
  ⟨(delay_total_and_nonneg "income" (some 2000) (-3)).1 (by decide),
   (delay_total_and_nonneg "income" (some 2000) (-3)).2⟩

/-! ## CacheStore key derivation: `DataCache._get_cache_path`
(cache_manager.py lines 35-78) -/

/-- The safe alphabet of the sanitizing regex `[^a-zA-Z0-9_-]`
(cache_manager.py line 65). -/
def isSafeChar (c : Char) : Bool :=
  c.isAlpha || c.isDigit || c == '_' || c == '-'

/-- One step of `re.sub(r'[^a-zA-Z0-9_-]', '_', key)`: an unsafe
character is collapsed to an underscore. -/
def sanitizeChar (c : Char) : Char :=
  if isSafeChar c then c else '_'

/-- `re.sub(r'[^a-zA-Z0-9_-]', '_', key)` applied character by
character. -/
def sanitize (s : String) : String :=
  ⟨s.data.map sanitizeChar⟩

/-- The characters after the last path separator. -/
def basenameChars (l : List Char) : List Char :=
  (l.reverse.takeWhile (fun c => c != '/')).reverse

/-- POSIX `os.path.basename`: keep only the part after the last '/'. -/
def basename (s : String) : String :=
  ⟨basenameChars s.data⟩

/-- Python `str.upper()`, character by character. -/
def strUpper (s : String) : String :=
  ⟨s.data.map Char.toUpper⟩

/-- The Windows reserved device names checked at cache_manager.py
lines 71-74. -/
def reservedNames : List String :=
  ["CON", "PRN", "AUX", "NUL",
   "COM1", "COM2", "COM3", "COM4", "COM5", "COM6", "COM7", "COM8", "COM9",
   "LPT1", "LPT2", "LPT3", "LPT4", "LPT5", "LPT6", "LPT7", "LPT8", "LPT9"]

/-- Step 4 of `_get_cache_path`: a reserved device name gets an
underscore prepended. -/
def reservedAdjust (s : String) : String :=
  if strUpper s ∈ reservedNames then "_" ++ s else s

/-- Python `str.strip()`: drop leading and trailing whitespace. -/
def strip (s : String) : String :=
  ⟨((s.data.dropWhile Char.isWhitespace).reverse.dropWhile Char.isWhitespace).reverse⟩

/-- Python slicing `key[:n]`: the first `n` characters. -/
def strTake (s : String) (n : Nat) : String :=
  ⟨s.data.take n⟩

/-- The safe file-name stem computed by `_get_cache_path`
(cache_manager.py lines 53-77), before the directory and the ".json"
extension are attached.  `md5hex` stands for `hashlib.md5(...).hexdigest()`,
kept abstract: the claims only depend on its output being hex text.
`none` models the `ValueError` raised for an empty or whitespace-only
key (`if not key or not key.strip()`). -/
def safeKeyOf (md5hex : String → String) (key : String) : Option String :=
  if key = "" ∨ strip key = "" then none
  else
    some (reservedAdjust (basename
      (if key.length > 200 then strTake key 50 ++ "_" ++ md5hex key else sanitize key)))

/-- `DataCache._get_cache_path`: full path of the cache file for a key,
or the `ValueError` for an invalid key. -/
def getCachePath (md5hex : String → String) (cacheDir key : String) : Except String String :=
  match safeKeyOf md5hex key with
  | none => .error "cache key must not be empty"
  | some sk => .ok (cacheDir ++ "/" ++ sk ++ ".json")

/-! ## CacheStore contents: the cache directory as a map from paths to
file contents (cache_manager.py `DataCache.get` / `DataCache.set`) -/

/-- A file in the cache directory: either a completely written JSON
document `{timestamp, data}` or a torn (partially written / corrupted)
file on which `json.load` raises. -/
inductive CacheFile (α : Type) where
  | whole (timestamp : Rat) (data : α)
  | torn (bytes : String)
deriving DecidableEq

/-- The cache directory: what each path currently holds. -/
def FS (α : Type) := String → Option (CacheFile α)

/-- Writing (or unlinking, with `none`) one path. -/
def fsWrite {α : Type} (fs : FS α) (p : String) (v : Option (CacheFile α)) : FS α :=
  fun q => if q = p then v else fs q

/-- `DataCache.get` (cache_manager.py lines 92-122) at a resolved cache
path: returns `None` for a missing file; catches the `json.load`
failure of a torn file and returns `None` leaving the file in place;
deletes the file and returns `None` when `now - timestamp >
expireSeconds`; otherwise returns the stored data.  The second
component is the cache directory after the call. -/
def readCacheFile {α : Type} (expireSeconds now : Rat) (fs : FS α) (p : String) :
    Option α × FS α :=
  match fs p with
  | none => (none, fs)
  | some (.torn _) => (none, fs)
  | some (.whole ts d) =>
      if now - ts > expireSeconds then (none, fsWrite fs p none)
      else (some d, fs)

/-- The instants at which the process can be killed inside
`DataCache.set` (cache_manager.py lines 178-186): before the temp file
is opened, in the middle of writing the temp file (leaving torn bytes),
after the temp file is complete but before `os.replace`, or not at all. -/
inductive SetCrash where
  | beforeTempWrite
  | midTempWrite (bytes : String)
  | afterTempWrite
  | completed
deriving DecidableEq

/-- The cache directory left behind by `DataCache.set` when the process
is killed at crash point `c`: the entry is serialized to `p ++ ".tmp"`
and moved onto `p` by the single atomic `os.replace`. -/
def dataCacheSetCrash {α : Type} (fs : FS α) (p : String) (now : Rat) (d : α) :
    SetCrash → FS α
  | .beforeTempWrite => fs
  | .midTempWrite b => fsWrite fs (p ++ ".tmp") (some (.torn b))
  | .afterTempWrite => fsWrite fs (p ++ ".tmp") (some (.whole now d))
  | .completed =>
      fsWrite (fsWrite (fsWrite fs (p ++ ".tmp") (some (.whole now d)))
        p (some (.whole now d))) (p ++ ".tmp") none

/-! ## Helper lemmas for key derivation -/

theorem takeWhile_all {α : Type} {p : α → Bool} :
    ∀ {l : List α}, (∀ a ∈ l, p a = true) → l.takeWhile p = l
  | [], _ => rfl
  | a :: l, h => by
      rw [List.takeWhile_cons_of_pos (h a (List.mem_cons_self a l)),
        takeWhile_all (fun b hb => h b (List.mem_cons_of_mem a hb))]

theorem mem_of_mem_basenameChars {l : List Char} {c : Char}
    (h : c ∈ basenameChars l) : c ∈ l := by
  unfold basenameChars at h
  exact List.mem_reverse.mp (List.takeWhile_subset _ (List.mem_reverse.mp h))

theorem basenameChars_of_no_slash {l : List Char} (h : ∀ c ∈ l, c ≠ '/') :
    basenameChars l = l := by
  unfold basenameChars
  rw [takeWhile_all, List.reverse_reverse]
  intro a ha
  simpa using h a (List.mem_reverse.mp ha)

theorem sanitizeChar_safe (c : Char) : isSafeChar (sanitizeChar c) = true := by
  unfold sanitizeChar
  split
  · assumption
  · decide

theorem safeChar_ne_slash {c : Char} (h : isSafeChar c = true) : c ≠ '/' := by
  intro hc
  subst hc
  exact absurd h (by decide)

theorem safe_of_basename_sanitize {key : String} {c : Char}
    (h : c ∈ (basename (sanitize key)).data) : isSafeChar c = true := by
  have h1 : c ∈ (sanitize key).data := mem_of_mem_basenameChars h
  rcases List.mem_map.mp h1 with ⟨c0, _, hc0⟩
  rw [← hc0]
  exact sanitizeChar_safe c0

/-- Appending separator-free characters does not change which part of
the string `os.path.basename` keeps. -/
theorem basenameChars_append_of_no_slash {p t : List Char} (h : ∀ c ∈ t, c ≠ '/') :
    basenameChars (p ++ t) = basenameChars p ++ t := by
  unfold basenameChars
  rw [List.reverse_append]
  rw [List.takeWhile_append_of_pos (by
    intro a ha
    simpa using h a (List.mem_reverse.mp ha))]
  rw [List.reverse_append, List.reverse_reverse]

/-- C9 (amended): cache-key derivation (cache_manager.py lines 35-78):
an empty or whitespace-only key is rejected with an error; a non-empty
key of at most 200 characters is collapsed into the safe alphabet
`[a-zA-Z0-9_-]`; and a longer key yields the portion of its
50-character human-readable prefix after the prefix's last path
separator — the whole prefix when it contains none — joined by an
underscore to the hash of the full key, because `os.path.basename`
(line 69) runs on the unsanitized `key[:50] + '_' + hash` (stated for
hex hash output, as produced by `hashlib.md5(...).hexdigest()`). -/
theorem cache_key_derivation (md5hex : String → String) (cacheDir : String) :
    (∀ key : String, strip key = "" →
        getCachePath md5hex cacheDir key = .error "cache key must not be empty") ∧
    (∀ key : String, strip key ≠ "" → key.length ≤ 200 →
        safeKeyOf md5hex key = some (reservedAdjust (basename (sanitize key))) ∧
        ∀ c ∈ (reservedAdjust (basename (sanitize key))).data, isSafeChar c = true) ∧
    (∀ key : String, strip key ≠ "" → key.length > 200 →
        (∀ c ∈ (md5hex key).data, isSafeChar c = true) →
        safeKeyOf md5hex key
          = some (basename (strTake key 50) ++ "_" ++ md5hex key)) := by
  refine ⟨?_, ?_, ?_⟩
  · intro key h
    unfold getCachePath safeKeyOf
    rw [if_pos (Or.inr h)]
  · intro key htrim hlen
    have hkey : ¬(key = "" ∨ strip key = "") := by
      rintro (h | h)
      · exact htrim (by rw [h]; rfl)
      · exact htrim h
    constructor
    · unfold safeKeyOf
      rw [if_neg hkey, if_neg (by omega : ¬ key.length > 200)]
    · intro c hc
      unfold reservedAdjust at hc
      by_cases hres : strUpper (basename (sanitize key)) ∈ reservedNames
      · rw [if_pos hres, String.data_append] at hc
        rcases List.mem_append.mp hc with h1 | h1
        · have hc' : c = '_' := by simpa using h1
          subst hc'
          decide
        · exact safe_of_basename_sanitize h1
      · rw [if_neg hres] at hc
        exact safe_of_basename_sanitize hc
  · intro key htrim hlen hhash
    have hkey : ¬(key = "" ∨ strip key = "") := by
      rintro (h | h)
      · exact htrim (by rw [h]; rfl)
      · exact htrim h
    have htail : ∀ c ∈ ('_' :: (md5hex key).data), c ≠ '/' := by
      intro c hc
      rcases List.mem_cons.mp hc with h1 | h1
      · subst h1
        decide
      · exact safeChar_ne_slash (hhash c h1)
    have hdata : (strTake key 50 ++ "_" ++ md5hex key).data
        = (strTake key 50).data ++ ('_' :: (md5hex key).data) := by
      rw [String.data_append, String.data_append, List.append_assoc]
      rfl
    have hb : basename (strTake key 50 ++ "_" ++ md5hex key)
        = basename (strTake key 50) ++ "_" ++ md5hex key := by
      apply String.ext
      show basenameChars (strTake key 50 ++ "_" ++ md5hex key).data
          = (basename (strTake key 50) ++ "_" ++ md5hex key).data
      rw [hdata, basenameChars_append_of_no_slash htail]
      rw [String.data_append, String.data_append, List.append_assoc]
      rfl
    have hus : ('_' : Char)
        ∈ (basename (strTake key 50) ++ "_" ++ md5hex key).data := by
      rw [String.data_append, String.data_append]
      exact List.mem_append.mpr (Or.inl (List.mem_append.mpr (Or.inr (by decide))))
    have hres : strUpper (basename (strTake key 50) ++ "_" ++ md5hex key)
        ∉ reservedNames := by
      intro hmem
      have hub : ('_' : Char)
          ∈ (strUpper (basename (strTake key 50) ++ "_" ++ md5hex key)).data :=
        List.mem_map.mpr ⟨'_', hus, by decide⟩
      have hall : ∀ r ∈ reservedNames, ('_' : Char) ∉ r.data := by decide
      exact hall _ hmem hub
    unfold safeKeyOf
    rw [if_neg hkey, if_pos hlen, hb]
    unfold reservedAdjust
    rw [if_neg hres]

/-! ## Claim theorems for CacheStore reads and writes -/

/-- Two directories agreeing at a path give the same `get` result
there. -/
theorem readCacheFile_fst_congr {α : Type} {fs1 fs2 : FS α} {p : String} (exp t : Rat)
    (h : fs1 p = fs2 p) :
    (readCacheFile exp t fs1 p).1 = (readCacheFile exp t fs2 p).1 := by
  unfold readCacheFile
  rw [h]
  cases fs2 p with
  | none => rfl
  | some f =>
      cases f with
      | whole ts d =>
          dsimp only
          split <;> rfl
      | torn b => rfl

/-- C4: `DataCache.set` is atomic with respect to crashes: whatever the
crash point, a subsequent `get` of the key sees either exactly what it
saw before the write or the complete new value, never a torn mix —
because all writing happens at the distinct path `p ++ ".tmp"` until the
single atomic `os.replace` (stated for a read at a time `tr` at which
the new entry has not yet expired). -/
theorem set_crash_atomic {α : Type} (fs : FS α) (p : String) (tw tr exp : Rat) (d : α)
    (c : SetCrash) (hfresh : tr - tw ≤ exp) :
    (readCacheFile exp tr (dataCacheSetCrash fs p tw d c) p).1
        = (readCacheFile exp tr fs p).1 ∨
    (readCacheFile exp tr (dataCacheSetCrash fs p tw d c) p).1 = some d := by
  have hne : p ≠ p ++ ".tmp" := by
    intro h
    have hl := congrArg String.length h
    rw [String.length_append] at hl
    have h4 : (".tmp" : String).length = 4 := rfl
    omega
  cases c with
  | beforeTempWrite => exact Or.inl rfl
  | midTempWrite b =>
      left
      refine readCacheFile_fst_congr exp tr ?_
      simp only [dataCacheSetCrash, fsWrite]
      rw [if_neg hne]
  | afterTempWrite =>
      left
      refine readCacheFile_fst_congr exp tr ?_
      simp only [dataCacheSetCrash, fsWrite]
      rw [if_neg hne]
  | completed =>
      right
      have hp : dataCacheSetCrash fs p tw d .completed p = some (.whole tw d) := by
        simp only [dataCacheSetCrash, fsWrite]
        rw [if_neg hne]
        simp
      simp only [readCacheFile, hp]
      rw [if_neg (not_lt.mpr hfresh)]

/-- Witness for C4 at a concrete input: empty directory, write of value
7 at time 0 completed, read at time 10 with a one-day TTL. -/
theorem set_crash_atomic_witness :
    (readCacheFile 86400 10 (dataCacheSetCrash (fun _ => (none : Option (CacheFile Nat)))
        "data/cache/600519_SH.json" 0 7 .completed) "data/cache/600519_SH.json").1
        = (readCacheFile 86400 10 (fun _ => (none : Option (CacheFile Nat)))
            "data/cache/600519_SH.json").1 ∨
    (readCacheFile 86400 10 (dataCacheSetCrash (fun _ => (none : Option (CacheFile Nat)))
        "data/cache/600519_SH.json" 0 7 .completed) "data/cache/600519_SH.json").1 = some 7 :=
  set_crash_atomic (fun _ => none) "data/cache/600519_SH.json" 0 10 86400 7 .completed
    (by norm_num)

/-- A cache directory holding one torn (corrupted / partially written)
file, used to test `DataCache.get` on corruption. -/
def fsCorruptEx : FS Nat :=
  fsWrite (fun _ => none) "data/cache/600519_SH.json" (some (.torn "xx"))

/-- C5 counterexample: `DataCache.get` on a corrupt entry returns `None`
(as for an absent key) but does NOT delete the corrupt file — after the
read the file is still present, so a subsequent read encounters the
same deserialization failure; this refutes the claim that the corrupt
file is deleted as a side effect of `get`. -/
theorem corrupt_entry_not_deleted :
    (readCacheFile 86400 1000 fsCorruptEx "data/cache/600519_SH.json").1 = none ∧
    (readCacheFile 86400 1000 fsCorruptEx "data/cache/600519_SH.json").2
        "data/cache/600519_SH.json" = some (CacheFile.torn "xx") ∧
    ¬ ((readCacheFile 86400 1000 fsCorruptEx "data/cache/600519_SH.json").2
        "data/cache/600519_SH.json" = none) :=
  ⟨rfl, rfl, fun h => Option.noConfusion h⟩

/-- C5 (amended): for every cache key whose stored file fails to
deserialize, `get` returns the same result as for an absent key and
never surfaces the failure, but it leaves the cache directory — and in
particular the corrupt file — untouched, so a subsequent read of the
same key meets the same deserialization failure again. -/
theorem corrupt_treated_as_absent {α : Type} (fs : FS α) (p b : String) (exp t t2 : Rat)
    (hfile : fs p = some (.torn b)) :
    (readCacheFile exp t fs p).1 = none ∧
    (readCacheFile exp t (fsWrite fs p none) p).1 = none ∧
    (readCacheFile exp t fs p).2 = fs ∧
    (readCacheFile exp t2 (readCacheFile exp t fs p).2 p).1 = none := by
  have h1 : readCacheFile exp t fs p = (none, fs) := by
    simp only [readCacheFile, hfile]
  have h2 : (readCacheFile exp t (fsWrite fs p none) p).1 = none := by
    have hp : fsWrite fs p none p = none := by
      simp only [fsWrite, if_pos]
    simp only [readCacheFile, hp]
  have h4 : (readCacheFile exp t2 (readCacheFile exp t fs p).2 p).1 = none := by
    rw [h1]
    simp only [readCacheFile, hfile]
  exact ⟨by rw [h1], h2, by rw [h1], h4⟩

/-- Witness for the amended C5 at the concrete corrupt directory. -/
theorem corrupt_treated_as_absent_witness :
    (readCacheFile 86400 1000 fsCorruptEx "data/cache/600519_SH.json").1 = none ∧
    (readCacheFile 86400 1000 (fsWrite fsCorruptEx "data/cache/600519_SH.json" none)
        "data/cache/600519_SH.json").1 = none ∧
    (readCacheFile 86400 1000 fsCorruptEx "data/cache/600519_SH.json").2 = fsCorruptEx ∧
    (readCacheFile 86400 2000
        (readCacheFile 86400 1000 fsCorruptEx "data/cache/600519_SH.json").2
        "data/cache/600519_SH.json").1 = none :=
  corrupt_treated_as_absent fsCorruptEx "data/cache/600519_SH.json" "xx" 86400 1000 2000 rfl

/-- C6: `DataCache.get` evaluates the TTL at read time against the
entry's stored timestamp: a read strictly before `storedAt + T` returns
the stored value and leaves the directory unchanged; a read strictly
after `storedAt + T` returns absent, deletes exactly that entry's file
(lazy eviction, so the key no longer appears in any listing of the
directory), and touches no other path.  `T` is the instance's
`expire_seconds`, which the source configures per category (24 hours
for financial data, 30 days for company metadata). -/
theorem ttl_lazy_eviction {α : Type} (fs : FS α) (p : String) (ts ttl t : Rat) (d : α)
    (hfile : fs p = some (.whole ts d)) :
    (t < ts + ttl → readCacheFile ttl t fs p = (some d, fs)) ∧
    (t > ts + ttl →
      (readCacheFile ttl t fs p).1 = none ∧
      (readCacheFile ttl t fs p).2 p = none ∧
      ∀ q, q ≠ p → (readCacheFile ttl t fs p).2 q = fs q) := by
  constructor
  · intro h
    simp only [readCacheFile, hfile]
    rw [if_neg (by intro hgt; linarith)]
  · intro h
    have hgt : t - ts > ttl := by linarith
    simp only [readCacheFile, hfile]
    rw [if_pos hgt]
    refine ⟨rfl, ?_, ?_⟩
    · simp only [fsWrite, if_pos]
    · intro q hq
      simp only [fsWrite]
      rw [if_neg hq]

/-- A cache directory holding one whole SEMI_STATIC entry stored at
time 0, for the TTL witness. -/
def fsSemiStaticEx : FS Nat :=
  fsWrite (fun _ => none) "data/cache/company_info_600519_SH.json" (some (.whole 0 42))

/-- Witness for C6 with the 30-day SEMI_STATIC TTL: a read 10 days
after the write returns the value; a read 31 days after the write
returns absent and removes the file. -/
theorem ttl_lazy_eviction_witness :
    (readCacheFile 2592000 864000 fsSemiStaticEx "data/cache/company_info_600519_SH.json"
        = (some 42, fsSemiStaticEx)) ∧
    (readCacheFile 2592000 2678400 fsSemiStaticEx
        "data/cache/company_info_600519_SH.json").1 = none ∧
    (readCacheFile 2592000 2678400 fsSemiStaticEx
        "data/cache/company_info_600519_SH.json").2
        "data/cache/company_info_600519_SH.json" = none := by
  have h10 := (ttl_lazy_eviction fsSemiStaticEx "data/cache/company_info_600519_SH.json"
    0 2592000 864000 42 rfl).1 (by norm_num)
  have h31 := (ttl_lazy_eviction fsSemiStaticEx "data/cache/company_info_600519_SH.json"
    0 2592000 2678400 42 rfl).2 (by norm_num)
  exact ⟨h10, h31.1, h31.2.1⟩

/-- Witness for the C9 hypotheses: the md5 hex digest kept abstract in
`safeKeyOf`, instantiated with a fixed hex string. -/
def md5hexEx : String → String := fun _ => "d41d8cd98f00b204e9800998ecf8427e"

/-- A 201-character key, beyond the 200-character hashing threshold. -/
def longKeyEx : String := ⟨List.replicate 201 'a'⟩

/-- A 201-character key whose 50-character prefix contains a path
separator: "dir/" followed by 197 repetitions of 'a'. -/
def slashKeyEx : String := "dir/" ++ ⟨List.replicate 197 'a'⟩

set_option maxRecDepth 8000 in
/-- C9 counterexample: for the long key `slashKeyEx` the derived file
stem is NOT the key's 50-character prefix joined to the hash of the
full key — `os.path.basename` (cache_manager.py line 69) runs on the
unsanitized `key[:50] + '_' + hash` and discards everything up to the
last '/', leaving only the 46 trailing characters of the prefix, which
is not a prefix of the key at all. -/
theorem long_key_prefix_truncated :
    safeKeyOf md5hexEx slashKeyEx
      ≠ some (strTake slashKeyEx 50 ++ "_" ++ md5hexEx slashKeyEx) ∧
    safeKeyOf md5hexEx slashKeyEx
      = some (⟨List.replicate 46 'a'⟩ ++ "_" ++ md5hexEx slashKeyEx) := by
  constructor
  · decide
  · decide

set_option maxRecDepth 8000 in
/-- Witness for C9 at concrete keys: a whitespace-only key is rejected;
a regular short key takes the sanitizing path; the slash-free
201-character key derives to its full 50-character prefix plus hash,
and the slash-containing long key to its basename-truncated prefix
plus hash. -/
theorem cache_key_derivation_witness :
    getCachePath md5hexEx "data/cache" "  " = .error "cache key must not be empty" ∧
    safeKeyOf md5hexEx "600519.SH_20200101_20241231_5"
        = some (reservedAdjust (basename (sanitize "600519.SH_20200101_20241231_5"))) ∧
    safeKeyOf md5hexEx longKeyEx
        = some (basename (strTake longKeyEx 50) ++ "_" ++ md5hexEx longKeyEx) ∧
    safeKeyOf md5hexEx slashKeyEx
        = some (basename (strTake slashKeyEx 50) ++ "_" ++ md5hexEx slashKeyEx) := by
  refine ⟨(cache_key_derivation md5hexEx "data/cache").1 "  " (by decide),
    ((cache_key_derivation md5hexEx "data/cache").2.1 "600519.SH_20200101_20241231_5"
      (by decide) (by decide)).1,
    (cache_key_derivation md5hexEx "data/cache").2.2 longKeyEx (by decide) (by decide)
      (by decide),
    (cache_key_derivation md5hexEx "data/cache").2.2 slashKeyEx (by decide) (by decide)
      (by decide)⟩

/-! ## FetchOrchestrator: the cache-hit window analysis of
`analyze_fundamentals` (utils.py lines 943-1037) and its incremental
merge (utils.py lines 1307-1334) -/

/-- `range(a, a + n)` over the integers. -/
def yearRangeAux (a : Int) : Nat → List Int
  | 0 => []
  | n + 1 => a :: yearRangeAux (a + 1) n

/-- Python `list(range(a, b + 1))`: the years of the requested window. -/
def yearRange (a b : Int) : List Int :=
  yearRangeAux a (b + 1 - a).toNat

/-- Python `min` of a nonempty list (0 for the empty list, never used
there). -/
def listMin (l : List Int) : Int :=
  l.foldl min (l.headD 0)

/-- Python `max` of a nonempty list (0 for the empty list, never used
there). -/
def listMax (l : List Int) : Int :=
  l.foldl max (l.headD 0)

/-- What `analyze_fundamentals` decides to do for a request whose cache
entry was found and parsed: return the cached result with no external
call, or fetch the year range `fetchStart..fetchEnd` and merge it into
the cached data. -/
inductive FetchPlan where
  | useCache
  | fetchIncremental (fetchStart fetchEnd : Int)
deriving DecidableEq, Repr

/-- The missing-year analysis of utils.py lines 948-1024 for a parsed
cache hit: `cachedYears` are the years present in the cached annual
metrics, the window is `startYear..endYear`, and `currentYear` is
`datetime.now().year`.  Missing years at or after `currentYear` are
ignored (current annual report not published yet); if exactly one
effective missing year remains (the `currentYear - 1` report, possibly
not yet published) the cached data is returned as-is; otherwise only
the span of the missing years is fetched. -/
def cacheHitPlan (cachedYears : List Int) (startYear endYear currentYear : Int) : FetchPlan :=
  let expectedYears := yearRange startYear endYear
  let missingYears := expectedYears.filter (fun y => ! cachedYears.contains y)
  if missingYears.isEmpty then .useCache
  else
    let effectiveMissing := missingYears.filter (fun y => y < currentYear)
    let historicalMissing := effectiveMissing.filter (fun y => y < currentYear - 1)
    if ¬ historicalMissing.isEmpty then
      .fetchIncremental (listMin historicalMissing) (listMax historicalMissing)
    else if effectiveMissing.length ≤ 1 then .useCache
    else .fetchIncremental (listMin effectiveMissing) (listMax effectiveMissing)

/-- The years for which a plan issues external calls (`fetch_start_date
.. fetch_end_date`); `useCache` issues none. -/
def planYearsFetched : FetchPlan → List Int
  | .useCache => []
  | .fetchIncremental s e => yearRange s e

/-! ## The incremental merge of newly fetched records with cached
records (utils.py lines 1307-1334) -/

/-- One row of the metrics table: `end_date` is the reporting-period
end date (the string "20201231" as the number 20201231) and `payload`
abstracts the row's financial fields. -/
structure PeriodRec where
  end_date : Int
  payload : Nat
deriving DecidableEq, Repr

/-- The period key of the annual report of year `y` (the string
`f"{y}1231"`). -/
def annual (y : Int) : Int :=
  y * 10000 + 1231

/-- The period keys of a record list. -/
def keysOf (l : List PeriodRec) : List Int :=
  l.map (fun r => r.end_date)

/-- Ascending comparison on period keys (`sort_values('end_date')`). -/
def keyLE (x y : PeriodRec) : Prop :=
  x.end_date ≤ y.end_date

/-- Descending comparison on period keys
(`sort_values('end_date', ascending=False)`). -/
def keyGE (x y : PeriodRec) : Prop :=
  y.end_date ≤ x.end_date

instance : DecidableRel keyLE :=
  fun x y => inferInstanceAs (Decidable (x.end_date ≤ y.end_date))

instance : DecidableRel keyGE :=
  fun x y => inferInstanceAs (Decidable (y.end_date ≤ x.end_date))

instance : IsTotal PeriodRec keyLE :=
  ⟨fun x y => Int.le_total x.end_date y.end_date⟩

instance : IsTrans PeriodRec keyLE :=
  ⟨fun _ _ _ h1 h2 => le_trans h1 h2⟩

instance : IsTotal PeriodRec keyGE :=
  ⟨fun x y => Int.le_total y.end_date x.end_date⟩

instance : IsTrans PeriodRec keyGE :=
  ⟨fun _ _ _ h1 h2 => le_trans h2 h1⟩

/-- `drop_duplicates(subset=['end_date'], keep='last')`: a row survives
exactly when its period key does not occur again later in the list. -/
def dropDupKeepLast : List PeriodRec → List PeriodRec
  | [] => []
  | r :: rs =>
      if rs.any (fun x => x.end_date == r.end_date)
      then dropDupKeepLast rs
      else r :: dropDupKeepLast rs

/-- The merge of utils.py lines 1319-1327: concatenate cached rows with
newly fetched rows, stable-sort ascending by period key, drop duplicate
keys keeping the last (i.e. newly fetched) row, re-sort descending, and
keep only full-year periods (`end_date` ending in "1231"). -/
def mergeIncremental (cached fetched : List PeriodRec) : List PeriodRec :=
  (List.insertionSort keyGE
    (dropDupKeepLast (List.insertionSort keyLE (cached ++ fetched)))).filter
      (fun r => r.end_date % 10000 == 1231)

/-! ## Helper lemmas about year ranges and the missing-year filter -/

theorem mem_yearRangeAux : ∀ {n : Nat} {a y : Int},
    y ∈ yearRangeAux a n ↔ a ≤ y ∧ y < a + n
  | 0, a, y => by
      simp only [yearRangeAux, List.not_mem_nil, false_iff]
      omega
  | n + 1, a, y => by
      simp only [yearRangeAux, List.mem_cons, mem_yearRangeAux (n := n)]
      omega

theorem mem_yearRange {a b y : Int} : y ∈ yearRange a b ↔ a ≤ y ∧ y ≤ b := by
  unfold yearRange
  rw [mem_yearRangeAux]
  omega

theorem yearRangeAux_append : ∀ (m n : Nat) (a : Int),
    yearRangeAux a (m + n) = yearRangeAux a m ++ yearRangeAux (a + m) n
  | 0, n, a => by simp [yearRangeAux]
  | m + 1, n, a => by
      have hs : m + 1 + n = (m + n) + 1 := by omega
      have harg : a + 1 + m = a + (m + 1) := by omega
      rw [hs]
      show a :: yearRangeAux (a + 1) (m + n)
          = (a :: yearRangeAux (a + 1) m) ++ yearRangeAux (a + (m + 1)) n
      rw [List.cons_append, yearRangeAux_append m n (a + 1), harg]

theorem yearRange_split {s a e : Int} (h1 : s ≤ a) (h2 : a ≤ e + 1) :
    yearRange s e = yearRange s (a - 1) ++ yearRange a e := by
  unfold yearRange
  have hm : (e + 1 - s).toNat = (a - 1 + 1 - s).toNat + (e + 1 - a).toNat := by omega
  rw [hm, yearRangeAux_append]
  congr 1
  · congr 1
    omega

theorem yearRange_ne_nil {a b : Int} (h : a ≤ b) : yearRange a b ≠ [] := by
  unfold yearRange
  have : (b + 1 - a).toNat = (b - a).toNat + 1 := by omega
  rw [this]
  simp [yearRangeAux]

theorem yearRange_eq_nil {a b : Int} (h : b < a) : yearRange a b = [] := by
  unfold yearRange
  have : (b + 1 - a).toNat = 0 := by omega
  rw [this]
  rfl

theorem foldl_min_of_le : ∀ (l : List Int) (acc : Int),
    (∀ y ∈ l, acc ≤ y) → l.foldl min acc = acc
  | [], _, _ => rfl
  | x :: xs, acc, h => by
      rw [List.foldl_cons, min_eq_left (h x (List.mem_cons_self x xs))]
      exact foldl_min_of_le xs acc (fun y hy => h y (List.mem_cons_of_mem x hy))

theorem listMin_yearRange {a b : Int} (h : a ≤ b) : listMin (yearRange a b) = a := by
  unfold listMin yearRange
  have hn : (b + 1 - a).toNat = (b - a).toNat + 1 := by omega
  rw [hn]
  simp only [yearRangeAux, List.headD_cons]
  refine foldl_min_of_le _ _ ?_
  intro y hy
  rcases List.mem_cons.mp hy with h1 | h1
  · omega
  · have := mem_yearRangeAux.mp h1
    omega

theorem foldl_max_yearRangeAux : ∀ (n : Nat) (a acc : Int), acc ≤ a + n →
    (yearRangeAux a (n + 1)).foldl max acc = a + n
  | 0, a, acc, h => by
      simp only [yearRangeAux, List.foldl_cons, List.foldl_nil]
      omega
  | n + 1, a, acc, h => by
      have ih := foldl_max_yearRangeAux n (a + 1) (max acc a) (by omega)
      simp only [yearRangeAux, List.foldl_cons] at ih ⊢
      rw [ih]
      omega

theorem listMax_yearRange {a b : Int} (h : a ≤ b) : listMax (yearRange a b) = b := by
  unfold listMax yearRange
  have hn : (b + 1 - a).toNat = (b - a).toNat + 1 := by omega
  rw [hn]
  have hh : (yearRangeAux a ((b - a).toNat + 1)).headD 0 = a := by
    simp [yearRangeAux]
  rw [hh, foldl_max_yearRangeAux (b - a).toNat a a (by omega)]
  omega

/-! ## Helper lemmas about the missing-year computation -/

theorem contains_false_of_not_mem {l : List Int} {y : Int} (h : y ∉ l) :
    l.contains y = false := by
  cases hct : l.contains y
  · rfl
  · exact absurd (List.elem_iff.mp hct) h

theorem missing_years_lower {cachedYears : List Int} {s a e : Int}
    (hc : ∀ y : Int, y ∈ cachedYears ↔ (a ≤ y ∧ y ≤ e))
    (h1 : s ≤ a) (h2 : a ≤ e + 1) :
    (yearRange s e).filter (fun y => ! cachedYears.contains y) = yearRange s (a - 1) := by
  rw [yearRange_split h1 h2, List.filter_append]
  have hL : (yearRange s (a - 1)).filter (fun y => ! cachedYears.contains y)
      = yearRange s (a - 1) := by
    rw [List.filter_eq_self]
    intro y hy
    have hy' := mem_yearRange.mp hy
    have hnot : y ∉ cachedYears := by
      intro hmem
      have := (hc y).mp hmem
      omega
    rw [contains_false_of_not_mem hnot]
    rfl
  have hR : (yearRange a e).filter (fun y => ! cachedYears.contains y) = [] := by
    rw [List.filter_eq_nil_iff]
    intro y hy
    have hy' := mem_yearRange.mp hy
    have hmem : y ∈ cachedYears := (hc y).mpr ⟨hy'.1, hy'.2⟩
    have hct : cachedYears.contains y = true := List.elem_iff.mpr hmem
    rw [hct]
    simp
  rw [hL, hR, List.append_nil]

theorem yearRange_self (e : Int) : yearRange e e = [e] := by
  unfold yearRange
  have h1 : (e + 1 - e).toNat = 1 := by omega
  rw [h1]
  rfl

theorem missing_years_upper {cachedYears : List Int} {s e : Int}
    (hc : ∀ y : Int, y ∈ cachedYears ↔ (s ≤ y ∧ y ≤ e - 1))
    (hse : s ≤ e - 1) :
    (yearRange s e).filter (fun y => ! cachedYears.contains y) = [e] := by
  rw [yearRange_split (a := e) (by omega) (by omega), List.filter_append]
  have hL : (yearRange s (e - 1)).filter (fun y => ! cachedYears.contains y) = [] := by
    rw [List.filter_eq_nil_iff]
    intro y hy
    have hy' := mem_yearRange.mp hy
    have hmem : y ∈ cachedYears := (hc y).mpr ⟨hy'.1, hy'.2⟩
    have hct : cachedYears.contains y = true := List.elem_iff.mpr hmem
    rw [hct]
    simp
  have hR : (yearRange e e).filter (fun y => ! cachedYears.contains y) = [e] := by
    rw [yearRange_self, List.filter_eq_self]
    intro y hy
    have hy' : y = e := by simpa using hy
    have hnot : y ∉ cachedYears := by
      intro hmem
      have := (hc y).mp hmem
      omega
    rw [contains_false_of_not_mem hnot]
    rfl
  rw [hL, hR, List.nil_append]

/-! ## Helper lemmas about the incremental merge -/

theorem dropDupKeepLast_eq_self : ∀ {l : List PeriodRec}, (keysOf l).Nodup →
    dropDupKeepLast l = l
  | [], _ => rfl
  | r :: rs, h => by
      have h1 : keysOf (r :: rs) = r.end_date :: keysOf rs := rfl
      rw [h1, List.nodup_cons] at h
      have hany : rs.any (fun x => x.end_date == r.end_date) = false := by
        rw [List.any_eq_false]
        intro x hx
        simp only [beq_iff_eq]
        intro he
        exact h.1 (List.mem_map.mpr ⟨x, hx, he⟩)
      unfold dropDupKeepLast
      rw [hany, if_neg (by simp), dropDupKeepLast_eq_self h.2]

theorem mergeIncremental_of_nodup (cached fetched : List PeriodRec)
    (hnd : (keysOf (cached ++ fetched)).Nodup)
    (hann : ∀ r ∈ cached ++ fetched, r.end_date % 10000 = 1231) :
    (mergeIncremental cached fetched).Perm (cached ++ fetched) ∧
    List.Sorted keyGE (mergeIncremental cached fetched) := by
  have hperm1 : (List.insertionSort keyLE (cached ++ fetched)).Perm (cached ++ fetched) :=
    List.perm_insertionSort keyLE (cached ++ fetched)
  have hnd1 : (keysOf (List.insertionSort keyLE (cached ++ fetched))).Nodup := by
    unfold keysOf at hnd ⊢
    exact ((List.Perm.map (fun r : PeriodRec => r.end_date) hperm1).nodup_iff).mpr hnd
  have hdd : dropDupKeepLast (List.insertionSort keyLE (cached ++ fetched))
      = List.insertionSort keyLE (cached ++ fetched) :=
    dropDupKeepLast_eq_self hnd1
  have hperm2 : (List.insertionSort keyGE
      (List.insertionSort keyLE (cached ++ fetched))).Perm (cached ++ fetched) :=
    (List.perm_insertionSort keyGE _).trans hperm1
  have hfilter : (List.insertionSort keyGE
      (List.insertionSort keyLE (cached ++ fetched))).filter
        (fun r => r.end_date % 10000 == 1231)
      = List.insertionSort keyGE (List.insertionSort keyLE (cached ++ fetched)) := by
    rw [List.filter_eq_self]
    intro r hr
    have hrm : r ∈ cached ++ fetched := hperm2.mem_iff.mp hr
    simpa using hann r hrm
  constructor
  · unfold mergeIncremental
    rw [hdd, hfilter]
    exact hperm2
  · unfold mergeIncremental
    rw [hdd, hfilter]
    exact List.sorted_insertionSort keyGE _

/-! ## Claim theorems for the fetch orchestration -/

/-- C7: when the cached payload is missing only the most recent
reporting period of the requested window — the current reporting period
(`endYear ≥ currentYear - 1`), whose annual report may not have been
published yet — `analyze_fundamentals` returns the cached data without
issuing any external call, instead of treating the request as a miss. -/
theorem current_period_gap_tolerated (cachedYears : List Int) (s e cur : Int)
    (hc : ∀ y : Int, y ∈ cachedYears ↔ (s ≤ y ∧ y ≤ e - 1))
    (hse : s ≤ e - 1) (hrecent : cur - 1 ≤ e) :
    cacheHitPlan cachedYears s e cur = .useCache ∧
    planYearsFetched (cacheHitPlan cachedYears s e cur) = [] := by
  have hplan : cacheHitPlan cachedYears s e cur = .useCache := by
    simp only [cacheHitPlan]
    rw [missing_years_upper hc hse]
    by_cases hcur : e < cur
    · have h1 : decide (e < cur) = true := by simpa using hcur
      have h2 : decide (e < cur - 1) = false := by
        simp only [decide_eq_false_iff_not]
        omega
      simp [List.filter_cons, h1, h2]
    · have h1 : decide (e < cur) = false := by
        simp only [decide_eq_false_iff_not]
        exact hcur
      simp [List.filter_cons, h1]
  exact ⟨hplan, by rw [hplan]; rfl⟩

/-- Witness for C7: window 2020-2025, cache covering 2020-2024, current
year 2025: the plan is `useCache` and no years are fetched. -/
theorem current_period_gap_tolerated_witness :
    cacheHitPlan [2020, 2021, 2022, 2023, 2024] 2020 2025 2025 = .useCache ∧
    planYearsFetched (cacheHitPlan [2020, 2021, 2022, 2023, 2024] 2020 2025 2025) = [] :=
  current_period_gap_tolerated [2020, 2021, 2022, 2023, 2024] 2020 2025 2025
    (by
      intro y
      simp only [List.mem_cons, List.not_mem_nil, or_false]
      omega)
    (by decide) (by decide)

/-- C2: for a fetch whose cache entry covers only the newer periods
`a..endYear` of the requested window `startYear..endYear` (the missing
older years all being published history, i.e. strictly before
`currentYear - 1`), `analyze_fundamentals` plans external calls only
for the missing older sub-range `startYear..a-1`; the merged payload
holds exactly the annual period keys of the whole window with no
duplicates, sorted by period descending and containing only full-year
entries; and on a period-key collision the newly fetched record wins
over the cached one. -/
theorem incremental_fetch_merge (cachedYears : List Int) (s a e cur : Int)
    (cached fetched : List PeriodRec)
    (hc : ∀ y : Int, y ∈ cachedYears ↔ (a ≤ y ∧ y ≤ e))
    (hsa : s ≤ a - 1) (hae : a ≤ e) (hcur : a < cur)
    (hck : ∀ y : Int, annual y ∈ keysOf cached ↔ (a ≤ y ∧ y ≤ e))
    (hfk : ∀ y : Int, annual y ∈ keysOf fetched ↔ (s ≤ y ∧ y ≤ a - 1))
    (hca : ∀ r ∈ cached, r.end_date % 10000 = 1231)
    (hfa : ∀ r ∈ fetched, r.end_date % 10000 = 1231)
    (hcnd : (keysOf cached).Nodup) (hfnd : (keysOf fetched).Nodup) :
    cacheHitPlan cachedYears s e cur = .fetchIncremental s (a - 1) ∧
    planYearsFetched (cacheHitPlan cachedYears s e cur) = yearRange s (a - 1) ∧
    (∀ y : Int, annual y ∈ keysOf (mergeIncremental cached fetched) ↔ (s ≤ y ∧ y ≤ e)) ∧
    (keysOf (mergeIncremental cached fetched)).Nodup ∧
    List.Sorted keyGE (mergeIncremental cached fetched) ∧
    (∀ r ∈ mergeIncremental cached fetched, r.end_date % 10000 = 1231) ∧
    (∀ pc pf : Nat,
      mergeIncremental [⟨20201231, pc⟩] [⟨20201231, pf⟩] = [⟨20201231, pf⟩]) := by
  have hplan : cacheHitPlan cachedYears s e cur = .fetchIncremental s (a - 1) := by
    simp only [cacheHitPlan]
    rw [missing_years_lower hc (by omega) (by omega)]
    have heff : (yearRange s (a - 1)).filter (fun y => decide (y < cur))
        = yearRange s (a - 1) := by
      rw [List.filter_eq_self]
      intro y hy
      have hy' := mem_yearRange.mp hy
      simp only [decide_eq_true_eq]
      omega
    have hhist : (yearRange s (a - 1)).filter (fun y => decide (y < cur - 1))
        = yearRange s (a - 1) := by
      rw [List.filter_eq_self]
      intro y hy
      have hy' := mem_yearRange.mp hy
      simp only [decide_eq_true_eq]
      omega
    rw [heff, hhist]
    have hno : ¬ ((yearRange s (a - 1)).isEmpty = true) := by
      intro hx
      exact yearRange_ne_nil (by omega : s ≤ a - 1) (List.isEmpty_iff.mp hx)
    rw [if_neg hno, if_pos hno, listMin_yearRange hsa, listMax_yearRange hsa]
  have hannAll : ∀ r ∈ cached ++ fetched, r.end_date % 10000 = 1231 := by
    intro r hr
    rcases List.mem_append.mp hr with h | h
    · exact hca r h
    · exact hfa r h
  have hkeq : keysOf (cached ++ fetched) = keysOf cached ++ keysOf fetched := by
    unfold keysOf
    exact List.map_append _ _ _
  have hnd : (keysOf (cached ++ fetched)).Nodup := by
    rw [hkeq, List.nodup_append]
    refine ⟨hcnd, hfnd, ?_⟩
    intro k hkc hkf
    have hkann : k % 10000 = 1231 := by
      rcases List.mem_map.mp hkc with ⟨r, hr, hre⟩
      rw [← hre]
      exact hca r hr
    have hks : k = annual (k / 10000) := by
      unfold annual
      omega
    rw [hks] at hkc hkf
    have h1 := (hck (k / 10000)).mp hkc
    have h2 := (hfk (k / 10000)).mp hkf
    omega
  obtain ⟨hperm, hsorted⟩ := mergeIncremental_of_nodup cached fetched hnd hannAll
  have hkperm : (keysOf (mergeIncremental cached fetched)).Perm
      (keysOf (cached ++ fetched)) := by
    unfold keysOf
    exact List.Perm.map _ hperm
  refine ⟨hplan, by rw [hplan]; rfl, ?_, ?_, hsorted, ?_, fun pc pf => rfl⟩
  · intro y
    rw [hkperm.mem_iff, hkeq, List.mem_append, hck y, hfk y]
    omega
  · exact hkperm.nodup_iff.mpr hnd
  · intro r hr
    exact hannAll r (hperm.mem_iff.mp hr)

/-- The cached records of the C2 witness: annual rows 2020-2022. -/
def cachedRecsEx : List PeriodRec :=
  [⟨20221231, 1⟩, ⟨20211231, 2⟩, ⟨20201231, 3⟩]

/-- The newly fetched records of the C2 witness: annual rows 2018-2019. -/
def fetchedRecsEx : List PeriodRec :=
  [⟨20191231, 4⟩, ⟨20181231, 5⟩]

/-- Witness for C2: cache covering 2020-2022, request 2018-2022,
current year 2025: only 2018-2019 are fetched; the merged payload
covers the window with distinct keys, sorted descending; a fetched
record beats a cached record on the same key. -/
theorem incremental_fetch_merge_witness :
    cacheHitPlan [2020, 2021, 2022] 2018 2022 2025 = .fetchIncremental 2018 2019 ∧
    planYearsFetched (cacheHitPlan [2020, 2021, 2022] 2018 2022 2025)
      = yearRange 2018 2019 ∧
    annual 2018 ∈ keysOf (mergeIncremental cachedRecsEx fetchedRecsEx) ∧
    (keysOf (mergeIncremental cachedRecsEx fetchedRecsEx)).Nodup ∧
    List.Sorted keyGE (mergeIncremental cachedRecsEx fetchedRecsEx) ∧
    mergeIncremental [⟨20201231, 3⟩] [⟨20201231, 9⟩] = [⟨20201231, 9⟩] := by
  have h := incremental_fetch_merge [2020, 2021, 2022] 2018 2020 2022 2025
    cachedRecsEx fetchedRecsEx
    (by
      intro y
      simp only [List.mem_cons, List.not_mem_nil, or_false]
      omega)
    (by decide) (by decide) (by decide)
    (by
      intro y
      simp only [cachedRecsEx, keysOf, annual, List.map_cons, List.map_nil,
        List.mem_cons, List.not_mem_nil, or_false]
      omega)
    (by
      intro y
      simp only [fetchedRecsEx, keysOf, annual, List.map_cons, List.map_nil,
        List.mem_cons, List.not_mem_nil, or_false]
      omega)
    (by decide) (by decide) (by decide) (by decide)
  exact ⟨h.1, h.2.1, (h.2.2.1 2018).mpr (by decide), h.2.2.2.1, h.2.2.2.2.1,
    h.2.2.2.2.2.2 3 9⟩

/-! ## BatchEngine: `StockScreener.screen_all_stocks`
(screening.py lines 490-731) and `analyze_single_stock`
(screening.py lines 306-449) -/

/-- The failure kinds an entity's fetch or evaluation can raise
(spec §7): no data for the window, or a transient provider failure. -/
inductive ScreenErr where
  | dataUnavailable
  | upstreamError
deriving DecidableEq, Repr

/-- `analyze_single_stock`: runs the fetch-and-evaluate pipeline for
one stock; the catch-all handler at screening.py lines 444-449 turns
ANY exception into a `None` return, so the function itself never
raises.  `evalStock` abstracts the pipeline body: `.ok b` is a
completed analysis with `overall_pass = b`, `.error` a failure. -/
def analyzeSingleStock (evalStock : Nat → Except ScreenErr Bool) (e : Nat) : Option Bool :=
  match evalStock e with
  | .error _ => none
  | .ok b => some b

/-- The completion loop of `screen_all_stocks` (screening.py lines
639-725) over one list of stocks: a `None` result or a non-passing
result increments `failed_count`; a passing result joins the passed
list; no per-entity failure escapes the loop. -/
def screenLoop (evalStock : Nat → Except ScreenErr Bool) : List Nat → List Nat × Nat
  | [] => ([], 0)
  | e :: rest =>
      let res := screenLoop evalStock rest
      match analyzeSingleStock evalStock e with
      | some true => (e :: res.1, res.2)
      | some false => (res.1, res.2 + 1)
      | none => (res.1, res.2 + 1)

/-- What one batch run records, beyond its passed/failed aggregate: the
two partition groups, each pool's worker count and pacing delay, and
one `processLog` entry per `analyze_single_stock` invocation. -/
structure ScreenTrace where
  cachedGroup : List Nat
  uncachedGroup : List Nat
  cachedWorkers : Nat
  cachedDelay : Rat
  uncachedWorkers : Nat
  uncachedDelay : Rat
  processLog : List Nat
  passed : List Nat
  failedCount : Nat

/-- Modelled from the spec: `_process_stock_batch` is called at
screening.py lines 560 and 586 but its definition is absent from the
repository sources; per spec §4.4 (phases 2-3) it runs every entity of
its group through the orchestrator exactly once, records each entity
whose analysis fails or does not pass as a failed outcome, and never
lets one entity's failure abort the group. -/
def processStockBatch (outcome : Nat → Option Bool) (group : List Nat) : List Nat × Nat :=
  (group.filter (fun e => outcome e == some true),
   (group.filter (fun e => ! (outcome e == some true))).length)

/-- `screen_all_stocks`: phase 1 (lines 524-539) sequentially probes
the cache with `check_cache_exists` and partitions the stock list;
phase 2 (lines 553-607) runs the cached group with `min(50, len)`
workers and zero API delay and the uncached group with the caller's
`max_workers` and `api_delay`; and then the leftover full-list pass at
lines 612-726 submits EVERY stock to a thread pool once more.
`outcome e` is what `analyze_single_stock` returns for stock `e`
(deterministic across repeats: results are memoized in
`screening_cache`). -/
def screenAllStocks (cacheHit : Nat → Bool) (outcome : Nat → Option Bool)
    (stockList : List Nat) (maxWorkers : Nat) (apiDelay : Rat) : ScreenTrace :=
  let cachedStocks := stockList.filter cacheHit
  let uncachedStocks := stockList.filter (fun e => ! cacheHit e)
  let cachedRes := processStockBatch outcome cachedStocks
  let uncachedRes := processStockBatch outcome uncachedStocks
  let fullRes := processStockBatch outcome stockList
  { cachedGroup := cachedStocks
    uncachedGroup := uncachedStocks
    cachedWorkers := min 50 cachedStocks.length
    cachedDelay := 0
    uncachedWorkers := maxWorkers
    uncachedDelay := apiDelay
    processLog := cachedStocks ++ uncachedStocks ++ stockList
    passed := cachedRes.1 ++ uncachedRes.1 ++ fullRes.1
    failedCount := cachedRes.2 + uncachedRes.2 + fullRes.2 }

/-! ## Claim theorems for the batch engine -/

/-- C1 (code-bug evidence): on the batch [0 (cached), 1 (uncached)]
with every analysis passing, the cache probe partitions correctly and
the two pools are configured as claimed (cached: capped high
concurrency, zero delay; uncached: caller's workers, caller's delay) —
but each entity is processed TWICE, once in its partition group and
once more by the leftover full-list pass of screening.py lines 612-726,
which also duplicates every passing stock in the final list; this
contradicts the claimed exactly-once processing. -/
theorem batch_entities_processed_twice :
    (screenAllStocks (fun e => e == 0) (fun _ => some true) [0, 1] 10 (1/10)).cachedGroup
        = [0] ∧
    (screenAllStocks (fun e => e == 0) (fun _ => some true) [0, 1] 10 (1/10)).uncachedGroup
        = [1] ∧
    (screenAllStocks (fun e => e == 0) (fun _ => some true) [0, 1] 10 (1/10)).cachedWorkers
        = 1 ∧
    (screenAllStocks (fun e => e == 0) (fun _ => some true) [0, 1] 10 (1/10)).cachedDelay
        = 0 ∧
    (screenAllStocks (fun e => e == 0) (fun _ => some true) [0, 1] 10 (1/10)).uncachedWorkers
        = 10 ∧
    (screenAllStocks (fun e => e == 0) (fun _ => some true) [0, 1] 10 (1/10)).uncachedDelay
        = 1/10 ∧
    (screenAllStocks (fun e => e == 0) (fun _ => some true) [0, 1] 10 (1/10)).processLog
        = [0, 1, 0, 1] ∧
    (screenAllStocks (fun e => e == 0) (fun _ => some true) [0, 1] 10 (1/10)).processLog.count 0
        = 2 ∧
    (screenAllStocks (fun e => e == 0) (fun _ => some true) [0, 1] 10 (1/10)).processLog.count 1
        = 2 ∧
    (screenAllStocks (fun e => e == 0) (fun _ => some true) [0, 1] 10 (1/10)).passed
        = [0, 1, 0, 1] :=
  ⟨rfl, rfl, rfl, rfl, rfl, rfl, rfl, rfl, rfl, rfl⟩

theorem screenLoop_spec (evalStock : Nat → Except ScreenErr Bool) : ∀ l : List Nat,
    (screenLoop evalStock l).1
      = l.filter (fun e => analyzeSingleStock evalStock e == some true) ∧
    (screenLoop evalStock l).2
      = (l.filter (fun e => ! (analyzeSingleStock evalStock e == some true))).length
  | [] => ⟨rfl, rfl⟩
  | e :: rest => by
      have ih := screenLoop_spec evalStock rest
      unfold screenLoop
      cases ha : analyzeSingleStock evalStock e with
      | none =>
          simp only [List.filter_cons, ha]
          exact ⟨by simpa using ih.1, by simpa using ih.2⟩
      | some b =>
          cases b with
          | true =>
              simp only [List.filter_cons, ha]
              exact ⟨by simpa using ih.1, by simpa using ih.2⟩
          | false =>
              simp only [List.filter_cons, ha]
              exact ⟨by simpa using ih.1, by simpa using ih.2⟩

/-- C8: the batch loop never lets an individual entity's failure abort
the run: injecting an `UpstreamError` for entity `x` leaves every other
entity's presence in the passed list exactly as without the injection,
never lists `x` as passed, and keeps the failure count accurate — it
equals the number of entities whose analysis failed or did not pass. -/
theorem partial_failure_isolation (ev ev2 : Nat → Except ScreenErr Bool) (l : List Nat)
    (x : Nat) (hagree : ∀ e, e ≠ x → ev2 e = ev e)
    (hfail : ev2 x = .error .upstreamError) :
    ((screenLoop ev2 l).1.filter (fun e => e != x)
        = (screenLoop ev l).1.filter (fun e => e != x)) ∧
    x ∉ (screenLoop ev2 l).1 ∧
    (screenLoop ev2 l).2
      = (l.filter (fun e => ! (analyzeSingleStock ev2 e == some true))).length := by
  have hspec2 := screenLoop_spec ev2 l
  have hspec := screenLoop_spec ev l
  refine ⟨?_, ?_, hspec2.2⟩
  · rw [hspec2.1, hspec.1, List.filter_filter, List.filter_filter]
    refine List.filter_congr ?_
    intro e he
    by_cases hex : e = x
    · subst hex
      simp
    · have : ev2 e = ev e := hagree e hex
      simp [analyzeSingleStock, this]
  · rw [hspec2.1]
    intro hx
    have := List.of_mem_filter hx
    rw [analyzeSingleStock, hfail] at this
    simp at this

/-- The fault-free evaluation of the C8 witness: every stock passes. -/
def evalAllPassEx : Nat → Except ScreenErr Bool := fun _ => .ok true

/-- The faulty evaluation of the C8 witness: entity 17 hits an
`UpstreamError`, all others pass. -/
def evalFault17Ex : Nat → Except ScreenErr Bool :=
  fun e => if e = 17 then .error .upstreamError else .ok true

/-- Witness for C8 on the batch [16, 17, 18] with entity 17 failing. -/
theorem partial_failure_isolation_witness :
    ((screenLoop evalFault17Ex [16, 17, 18]).1.filter (fun e => e != 17)
        = (screenLoop evalAllPassEx [16, 17, 18]).1.filter (fun e => e != 17)) ∧
    17 ∉ (screenLoop evalFault17Ex [16, 17, 18]).1 ∧
    (screenLoop evalFault17Ex [16, 17, 18]).2
      = ([16, 17, 18].filter
          (fun e => ! (analyzeSingleStock evalFault17Ex e == some true))).length :=
  partial_failure_isolation evalAllPassEx evalFault17Ex [16, 17, 18] 17
    (by
      intro e he
      simp [evalFault17Ex, evalAllPassEx, he])
    rfl
